import Mathlib

/-!
# Verification development for `try` (src/main.go)

A shallow embedding of the project selector: the model, `Update`, `initialModel`,
`getProjects`, `filterProjects` and `expandPath` are translated from `src/main.go`.

Go strings are byte sequences, so a string is a list of bytes (`Nat`, each below
256 in every value the program handles).  The Go standard-library functions the
program calls are modelled next to it: the ones with a short byte-level definition
(`strings.HasPrefix`, `strings.Contains`, the ASCII paths of `strings.ToLower` and
`strconv.Quote`, `filepath.Join`/`Clean`/`Dir`/`Base` for Unix, string comparison)
concretely, the table-driven Unicode parts and the state of the outside world
(clock, file system, home directory) as fields of an environment record.
-/

namespace Try

/-- A Go string: its bytes. -/
abbrev Str := List Nat

/-- The bytes of an ASCII literal. -/
def ascii (s : String) : Str := s.data.map Char.toNat

/-! ## Go standard library: `strings` -/

/-- Go `strings.HasPrefix(s, prefix)`. -/
def hasPrefix : Str → Str → Bool
  | _, [] => true
  | [], _ :: _ => false
  | a :: s, b :: p => a == b && hasPrefix s p

/-- Go `strings.Contains(s, substr)`: some position of `s` starts with `substr`. -/
def contains : Str → Str → Bool
  | [], sub => hasPrefix [] sub
  | a :: s, sub => hasPrefix (a :: s) sub || contains s sub

/-- The byte test `'A' <= c && c <= 'Z'`. -/
def isUpperByte (c : Nat) : Bool := decide (65 ≤ c) && decide (c ≤ 90)

/-- The ASCII branch of `strings.ToLower`: `c += 'a' - 'A'` on upper-case bytes. -/
def lowerByte (c : Nat) : Nat := if isUpperByte c then c + 32 else c

/-- Go `strings.ToLower`.  A string of bytes below `utf8.RuneSelf` (0x80) takes the
ASCII path: returned as is when it has no upper-case letter, mapped byte by byte
otherwise.  Any other string goes through `strings.Map(unicode.ToLower, s)`, which
is the parameter `unicodeLower`. -/
def toLower (unicodeLower : Str → Str) (s : Str) : Str :=
  if s.all (fun c => decide (c < 128)) then
    if s.any isUpperByte then s.map lowerByte else s
  else unicodeLower s

/-! ## `filterProjects` (src/main.go, lines 169-182) -/

/-- The loop of `filterProjects`: `filtered` is the slice built so far. -/
def filterLoop (unicodeLower : Str → Str) (searchLower : Str) :
    List Str → List Str → List Str
  | [], filtered => filtered
  | project :: rest, filtered =>
    if contains (toLower unicodeLower project) searchLower then
      filterLoop unicodeLower searchLower rest (filtered ++ [project])
    else
      filterLoop unicodeLower searchLower rest filtered

/-- Go `filterProjects(projects, search)`. -/
def filterProjects (unicodeLower : Str → Str) (projects : List Str) (search : Str) :
    List Str :=
  if search = [] then projects
  else filterLoop unicodeLower (toLower unicodeLower search) projects []

/-! ## Go standard library: `path/filepath` on Unix -/

/-- The path separator `/`. -/
def sep : Nat := 47

/-- The byte `.`. -/
def dot : Nat := 46

/-- The backtracking loop of `filepath.Clean` on a `..` element:
`for out.w > dotdot && !os.IsPathSeparator(out.index(out.w)) { out.w-- }`,
returning the final `out.w`. -/
def backtrack (out : Str) (dotdot : Nat) : Nat → Nat
  | 0 => 0
  | w + 1 =>
    if dotdot < w + 1 && out.getD (w + 1) 0 != sep then backtrack out dotdot w
    else w + 1

/-- The main loop `for r < n` of `filepath.Clean`: `path` is the unread rest
`path[r:]`, `out` the bytes written so far (`out.w` is its length), `dotdot` the
index where `..` must stop.  One unit of fuel per iteration; every iteration reads
at least one byte, so `path.length` units always suffice. -/
def cleanLoop (rooted : Bool) : Nat → Str → Str → Nat → Str
  | 0, _, out, _ => out
  | _ + 1, [], out, _ => out
  | fuel + 1, c :: rest, out, dotdot =>
    if c = sep then
      -- empty path element
      cleanLoop rooted fuel rest out dotdot
    else if c = dot ∧ (rest = [] ∨ rest.head? = some sep) then
      -- . element
      cleanLoop rooted fuel rest out dotdot
    else if c = dot ∧ rest.head? = some dot ∧
        (rest.tail = [] ∨ rest.tail.head? = some sep) then
      -- .. element: remove to last separator
      if dotdot < out.length then
        cleanLoop rooted fuel rest.tail
          (out.take (backtrack out dotdot (out.length - 1))) dotdot
      else if !rooted then
        let out1 := (if 0 < out.length then out ++ [sep] else out) ++ [dot, dot]
        cleanLoop rooted fuel rest.tail out1 out1.length
      else
        cleanLoop rooted fuel rest.tail out dotdot
    else
      -- real path element: add slash if needed, copy element
      let out1 :=
        if (rooted && out.length != 1) || (!rooted && out.length != 0) then out ++ [sep]
        else out
      cleanLoop rooted fuel ((c :: rest).dropWhile (fun b => b != sep))
        (out1 ++ (c :: rest).takeWhile (fun b => b != sep)) dotdot

/-- Go `filepath.Clean` (Unix: no volume name, `FromSlash` is the identity). -/
def clean (path : Str) : Str :=
  if path = [] then [dot]
  else
    let rooted := path.head? = some sep
    let out :=
      if rooted then cleanLoop true path.length path.tail [sep] 1
      else cleanLoop false path.length path [] 0
    if out = [] then [dot] else out

/-- Go `filepath.Join(a, b)` (Unix): the first non-empty element and everything
after it, joined by `/` and cleaned; the empty string when both are empty. -/
def join (a b : Str) : Str :=
  if a ≠ [] then clean (a ++ [sep] ++ b)
  else if b ≠ [] then clean b
  else []

/-- Go `filepath.Dir` (Unix): everything up to the last separator, cleaned. -/
def dir (path : Str) : Str :=
  clean (path.reverse.dropWhile (fun b => b != sep)).reverse

/-! ## Go standard library: `strconv.Quote`, as used by the verb `%q` -/

/-- The table `lowerhex`. -/
def lowerhex (n : Nat) : Nat := if n < 10 then 48 + n else 87 + n

/-- The escape `\xhh` of a byte. -/
def hexEscape (c : Nat) : Str := [92, 120, lowerhex (c / 16), lowerhex (c % 16)]

/-- Go `appendEscapedRune` for a rune below `utf8.RuneSelf` with quote `"`:
`"` and `\` are backslashed, printable ASCII is copied, the seven named control
characters get their letter, the other control characters `\xhh`. -/
def escapeASCII (r : Nat) : Str :=
  if r = 34 ∨ r = 92 then [92, r]
  else if 32 ≤ r ∧ r < 127 then [r]
  else if r = 7 then [92, 97]
  else if r = 8 then [92, 98]
  else if r = 12 then [92, 102]
  else if r = 10 then [92, 110]
  else if r = 13 then [92, 114]
  else if r = 9 then [92, 116]
  else if r = 11 then [92, 118]
  else hexEscape r

/-- The loop of `strconv.appendQuotedWith`.  `skip` counts the bytes of the current
rune still to pass over.  For a first byte of 0x80 and above, `quoteHigh s` is what
the library appends for the first rune of `s` together with the rune's width
(UTF-8 decoding and the `IsPrint` table). -/
def quoteLoop (quoteHigh : Str → Str × Nat) : Nat → Str → Str
  | _, [] => []
  | skip + 1, _ :: rest => quoteLoop quoteHigh skip rest
  | 0, c :: rest =>
    if c < 128 then escapeASCII c ++ quoteLoop quoteHigh 0 rest
    else (quoteHigh (c :: rest)).1 ++ quoteLoop quoteHigh ((quoteHigh (c :: rest)).2 - 1) rest

/-- Go `strconv.Quote(s)`: a double-quoted Go string literal. -/
def quote (quoteHigh : Str → Str × Nat) (s : Str) : Str :=
  [34] ++ quoteLoop quoteHigh 0 s ++ [34]

/-- Go `fmt.Sprintf("cd %q", path)`. -/
def cdCommand (quoteHigh : Str → Str × Nat) (path : Str) : Str :=
  ascii "cd " ++ quote quoteHigh path

/-! ## Go standard library: `sort.Strings` -/

/-- Go string comparison `a <= b`: byte-wise lexicographic. -/
def strLe : Str → Str → Bool
  | [], _ => true
  | _ :: _, [] => false
  | a :: s, b :: t => decide (a < b) || (a == b && strLe s t)

/-- Go `sort.Strings`.  Strings that compare equal are the same string, so every
sorting algorithm returns the same slice; insertion sort stands for it. -/
def sortStrings (l : List Str) : List Str :=
  l.insertionSort (fun a b => strLe a b = true)

/-! ## The outside world -/

/-- An `os.DirEntry`: its `Name()` and `IsDir()`. -/
structure DirEntry where
  name : Str
  isDir : Bool
deriving DecidableEq

/-- The library functions that stay fixed during a run. -/
structure Lib where
  /-- The function `strings.Map(unicode.ToLower, s)`. -/
  unicodeLower : Str → Str
  /-- What `strconv.Quote` appends for a rune of 0x80 and above, and its width. -/
  quoteHigh : Str → Str × Nat

/-- The state of the world at one call: clock and file system. -/
structure World where
  /-- The value of `time.Now().Format("2006-01-02")`. -/
  today : Str
  /-- Whether `os.MkdirAll(path, 0755)` returns a nil error. -/
  mkdirAllOk : Str → Bool
  /-- Whether `os.IsNotExist` holds of the error of `os.Stat(path)`. -/
  statNotExist : Str → Bool
  /-- The result of `os.ReadDir(path)`: the entries, or the error. -/
  readDir : Str → Except Str (List DirEntry)

/-! ## `getProjects` (src/main.go, lines 147-167) -/

/-- The loop of `getProjects` over the entries. -/
def collectDirs : List DirEntry → List Str → List Str
  | [], projects => projects
  | entry :: rest, projects =>
    if entry.isDir then collectDirs rest (projects ++ [entry.name])
    else collectDirs rest projects

/-- Go `getProjects(projectsDir)`: the returned slice and error (`none` is `nil`).
The call of `os.MkdirAll` in the first branch changes the file system only. -/
def getProjects (w : World) (projectsDir : Str) : List Str × Option Str :=
  if w.statNotExist projectsDir then ([], none)
  else
    match w.readDir projectsDir with
    | .error err => ([], some err)
    | .ok entries => (sortStrings (collectDirs entries []), none)

/-! ## The model and `Update` (src/main.go, lines 39-114) -/

/-- The struct `model`. -/
structure Model where
  choices : List Str
  cursor : Int
  search : Str
  filtered : List Str
  projectsDir : Str
deriving DecidableEq

/-- Go `initialModel(projectsDir)`; the error of `getProjects` is dropped. -/
def initialModel (w : World) (projectsDir : Str) : Model :=
  { choices := (getProjects w projectsDir).1
    cursor := 0
    search := []
    filtered := (getProjects w projectsDir).1
    projectsDir := projectsDir }

/-- A `tea.Msg`: a `tea.KeyMsg`, given by its `String()`, or any other message. -/
inductive Msg where
  | key (s : Str)
  | other
deriving DecidableEq

/-- What one call of `Update` does: the returned model, whether the returned command
is `tea.Quit` (otherwise `nil`), the text written to standard output, and the path
handed to `os.MkdirAll`, if it was called. -/
structure Outcome where
  model : Model
  quit : Bool
  stdout : Str
  mkdirAll : Option Str
deriving DecidableEq

/-- The final `return m, nil` of `Update`. -/
def continueWith (m : Model) : Outcome :=
  { model := m, quit := false, stdout := [], mkdirAll := none }

/-- Go `m.filtered[m.cursor]`: `none` is the index-out-of-range panic. -/
def index (l : List Str) (i : Int) : Option Str :=
  if i < 0 then none else l.get? i.toNat

/-- The case `"enter"` of `Update`; `none` is a run-time panic. -/
def onEnter (lib : Lib) (m : Model) : Option Outcome :=
  if 0 < m.filtered.length ∧ m.cursor < m.filtered.length then
    match index m.filtered m.cursor with
    | none => none
    | some selectedProject =>
      let projectPath := join m.projectsDir selectedProject
      some { model := m, quit := true, stdout := cdCommand lib.quoteHigh projectPath,
             mkdirAll := none }
  else some (continueWith m)

/-- The case `"ctrl+k"` of `Update`. -/
def onCtrlK (m : Model) : Outcome :=
  if 0 < m.cursor then continueWith { m with cursor := m.cursor - 1 }
  else continueWith m

/-- The case `"ctrl+j"` of `Update`. -/
def onCtrlJ (m : Model) : Outcome :=
  if m.cursor < (m.filtered.length : Int) - 1 then
    continueWith { m with cursor := m.cursor + 1 }
  else continueWith m

/-- The case `"ctrl+n"` of `Update`. -/
def onCtrlN (lib : Lib) (w : World) (m : Model) : Outcome :=
  if 0 < m.search.length then
    let newProjectName := w.today ++ ascii "-" ++ m.search
    let newProjectPath := join m.projectsDir newProjectName
    if w.mkdirAllOk newProjectPath then
      { model := m, quit := true, stdout := cdCommand lib.quoteHigh newProjectPath,
        mkdirAll := some newProjectPath }
    else
      { model := m, quit := false, stdout := [], mkdirAll := some newProjectPath }
  else continueWith m

/-- The case `"backspace"` of `Update`. -/
def onBackspace (lib : Lib) (m : Model) : Outcome :=
  if 0 < m.search.length then
    let search := m.search.take (m.search.length - 1)
    let filtered := filterProjects lib.unicodeLower m.choices search
    let cursor1 : Int :=
      if m.cursor ≥ filtered.length then (filtered.length : Int) - 1 else m.cursor
    let cursor2 : Int := if cursor1 < 0 then 0 else cursor1
    continueWith { m with search := search, filtered := filtered, cursor := cursor2 }
  else continueWith m

/-- The `default` case of `Update`, for the key string `k`. -/
def onDefault (lib : Lib) (m : Model) (k : Str) : Outcome :=
  if k.length = 1 then
    let search := m.search ++ k
    continueWith
      { m with search := search,
               filtered := filterProjects lib.unicodeLower m.choices search,
               cursor := 0 }
  else continueWith m

/-- Go `model.Update(msg)`: the type switch on the message and the switch on
`msg.String()`; `none` is a run-time panic. -/
def Update (lib : Lib) (w : World) (m : Model) : Msg → Option Outcome
  | .other => some (continueWith m)
  | .key k =>
    if k = ascii "ctrl+c" ∨ k = ascii "ctrl+q" then
      some { model := m, quit := true, stdout := [], mkdirAll := none }
    else if k = ascii "enter" then onEnter lib m
    else if k = ascii "ctrl+k" then some (onCtrlK m)
    else if k = ascii "ctrl+j" then some (onCtrlJ m)
    else if k = ascii "ctrl+n" then some (onCtrlN lib w m)
    else if k = ascii "backspace" then some (onBackspace lib m)
    else some (onDefault lib m k)

/-- The models reachable from the model `m0` by calls of `Update`, each on the model
the call before returned; the world may differ from call to call. -/
inductive Reachable (lib : Lib) (m0 : Model) : Model → Prop where
  | start : Reachable lib m0 m0
  | step (w : World) (m : Model) (msg : Msg) (o : Outcome) :
      Reachable lib m0 m → Update lib w m msg = some o → Reachable lib m0 o.model

/-! ## `expandPath` (src/main.go, lines 184-202) -/

/-- The text of the error of `expandPath`. -/
def tildeUserError (path : Str) : Str :=
  ascii "expansion of ~user paths not supported, use absolute path instead: " ++ path

/-- Go `expandPath(path)`: the returned string and error (`none` is `nil`).
`userHomeDir` is the result of `os.UserHomeDir()`. -/
def expandPath (userHomeDir : Str × Option Str) (path : Str) : Str × Option Str :=
  if !hasPrefix path (ascii "~") then (path, none)
  else if hasPrefix path (ascii "~/") then
    match userHomeDir.2 with
    | some err => ([], some err)
    | none => (join userHomeDir.1 (path.drop 2), none)
  else if path = ascii "~" then userHomeDir
  else ([], some (tildeUserError path))

/-- The reference for `expandPath` when the home directory is `home`, case by case
as the specification words it: unchanged without a leading `~`, `home` for `~`,
`filepath.Join(home, rest)` for `~/rest`, and the error otherwise. -/
def expandPathRef (home : Str) : Str → Except Str Str
  | [] => .ok []
  | c :: rest =>
    if c ≠ 126 then .ok (c :: rest)
    else
      match rest with
      | [] => .ok home
      | d :: rest1 =>
        if d = sep then .ok (join home rest1)
        else .error (ascii "expansion of ~user paths not supported")

/-- A Go result pair `(value, err)` as a sum: the error when it is not `nil`. -/
def toExcept (r : Str × Option Str) : Except Str Str :=
  match r.2 with
  | some err => .error err
  | none => .ok r.1

/-! ## Go standard library: `filepath.Base` -/

/-- Go `filepath.Base` (Unix): the last element of the path, trailing slashes
removed first; `.` for the empty path and `/` for a path of slashes only. -/
def base (path : Str) : Str :=
  if path = [] then [dot]
  else
    let stripped := (path.reverse.dropWhile (fun b => b == sep)).reverse
    let last := (stripped.reverse.takeWhile (fun b => b != sep)).reverse
    if last = [] then [sep] else last

/-! ## POSIX shell: a double-quoted word

The shell function printed by `try init` runs `eval "$output"`.  The part of the
shell grammar needed to read `cd "..."` is the double-quoted word (POSIX XCU 2.2.3):
`$` and the backquote keep their special meaning, a backslash quotes only `$`,
backquote, `"`, `\` and newline, every other byte stands for itself. -/

/-- What the shell makes of a command: a `cd` with one literal argument, a command
in which an expansion or substitution takes place, or something else. -/
inductive ShellReading where
  | cdLiteral (arg : Str)
  | expands
  | other
deriving DecidableEq

/-- Whether a byte after `$` starts a parameter expansion, command substitution or
arithmetic expansion: a name character, a digit, `{`, `(` or a special parameter. -/
def startsExpansion (c : Nat) : Bool :=
  (decide (65 ≤ c) && decide (c ≤ 90)) || (decide (97 ≤ c) && decide (c ≤ 122)) ||
  (decide (48 ≤ c) && decide (c ≤ 57)) ||
  c == 95 || c == 123 || c == 40 || c == 64 || c == 42 || c == 35 || c == 63 ||
  c == 45 || c == 36 || c == 33

/-- Reading the inside of a double-quoted word after the opening quote; `acc` is the
literal value read so far.  The word must end the command. -/
def readDoubleQuoted : Str → Str → ShellReading
  | [], _ => .other
  | [34], acc => .cdLiteral acc
  | 34 :: _ :: _, _ => .other
  | 96 :: _, _ => .expands
  | [36], acc => readDoubleQuoted [] (acc ++ [36])
  | 36 :: c :: rest, acc =>
    if startsExpansion c then .expands else readDoubleQuoted (c :: rest) (acc ++ [36])
  | [92], _ => .other
  | 92 :: c :: rest, acc =>
    if c = 36 ∨ c = 96 ∨ c = 34 ∨ c = 92 then readDoubleQuoted rest (acc ++ [c])
    else if c = 10 then readDoubleQuoted rest acc
    else readDoubleQuoted rest (acc ++ [92, c])
  | c :: rest, acc => readDoubleQuoted rest (acc ++ [c])

/-- Reading a command of the shape `cd "..."`. -/
def readCommand (cmd : Str) : ShellReading :=
  match cmd with
  | 99 :: 100 :: 32 :: 34 :: rest => readDoubleQuoted rest []
  | _ => .other

/-! ## Concrete inputs -/

/-- A library whose Unicode parts are never reached on ASCII input. -/
def libA : Lib := { unicodeLower := fun s => s, quoteHigh := fun _ => ([], 1) }

/-- A world on 2026-11-04 where `/p` holds the directories `Alpha`, `beta` and the
regular file `notes`, and every `os.MkdirAll` succeeds. -/
def worldA : World :=
  { today := ascii "2026-11-04"
    mkdirAllOk := fun _ => true
    statNotExist := fun path => path != ascii "/p"
    readDir := fun _ =>
      .ok [⟨ascii "Alpha", true⟩, ⟨ascii "beta", true⟩, ⟨ascii "notes", false⟩] }

/-- The model after typing `a`. -/
def modelTypedA : Model :=
  { choices := [ascii "Alpha", ascii "beta"], cursor := 0, search := ascii "a",
    filtered := [ascii "Alpha", ascii "beta"], projectsDir := ascii "/p" }

/-- The model after typing `a` and pressing ctrl+j. -/
def modelMoved : Model :=
  { choices := [ascii "Alpha", ascii "beta"], cursor := 1, search := ascii "a",
    filtered := [ascii "Alpha", ascii "beta"], projectsDir := ascii "/p" }

/-- The model after typing `a`, `/`, `b`. -/
def modelTypedSlash : Model :=
  { choices := [ascii "Alpha", ascii "beta"], cursor := 0, search := ascii "a/b",
    filtered := [], projectsDir := ascii "/p" }

/-- The model after typing `$HOME`. -/
def modelTypedDollar : Model :=
  { choices := [ascii "Alpha", ascii "beta"], cursor := 0, search := ascii "$HOME",
    filtered := [], projectsDir := ascii "/p" }

/-- The model after typing `foo`. -/
def modelTypedFoo : Model :=
  { choices := [ascii "Alpha", ascii "beta"], cursor := 0, search := ascii "foo",
    filtered := [], projectsDir := ascii "/p" }

/-! ## The invariant of the model -/

/-- The displayed list is the filter of the full list by the search, and the cursor
is a position of the displayed list (0 when it is empty). -/
def Inv (lib : Lib) (m : Model) : Prop :=
  m.filtered = filterProjects lib.unicodeLower m.choices m.search ∧
  0 ≤ m.cursor ∧
  (m.filtered ≠ [] → m.cursor < m.filtered.length) ∧
  (m.filtered = [] → m.cursor = 0)

/-! ## Lemmas on the string functions -/

theorem hasPrefix_iff (s p : Str) : hasPrefix s p = true ↔ ∃ t, s = p ++ t := by
  induction p generalizing s with
  | nil => simp [hasPrefix]
  | cons b p ih =>
    cases s with
    | nil => simp [hasPrefix]
    | cons a s =>
      simp only [hasPrefix, Bool.and_eq_true, beq_iff_eq, ih, List.cons_append,
        List.cons.injEq]
      constructor
      · rintro ⟨rfl, t, rfl⟩
        exact ⟨t, rfl, rfl⟩
      · rintro ⟨t, rfl, rfl⟩
        exact ⟨rfl, t, rfl⟩

theorem contains_iff (s sub : Str) :
    contains s sub = true ↔ ∃ l r, s = l ++ sub ++ r := by
  induction s with
  | nil =>
    simp only [contains, hasPrefix_iff]
    constructor
    · rintro ⟨t, h⟩
      exact ⟨[], t, by simpa using h⟩
    · rintro ⟨l, r, h⟩
      have h1 : l ++ sub ++ r = [] := h.symm
      simp only [List.append_eq_nil] at h1
      exact ⟨[], by simp [h1.1.2]⟩
  | cons a s ih =>
    simp only [contains, Bool.or_eq_true, hasPrefix_iff, ih]
    constructor
    · rintro (⟨t, h⟩ | ⟨l, r, h⟩)
      · exact ⟨[], t, by simpa using h⟩
      · exact ⟨a :: l, r, by simp [h]⟩
    · rintro ⟨l, r, h⟩
      cases l with
      | nil => exact Or.inl ⟨r, by simpa using h⟩
      | cons b l =>
        simp only [List.cons_append, List.cons.injEq] at h
        exact Or.inr ⟨l, r, h.2⟩

theorem contains_nil (s : Str) : contains s [] = true := by
  rw [contains_iff]
  exact ⟨[], s, rfl⟩

theorem toLower_nil (unicodeLower : Str → Str) : toLower unicodeLower [] = [] := by
  simp [toLower]

theorem filterLoop_eq (unicodeLower : Str → Str) (searchLower : Str)
    (projects filtered : List Str) :
    filterLoop unicodeLower searchLower projects filtered =
      filtered ++ projects.filter
        (fun p => contains (toLower unicodeLower p) searchLower) := by
  induction projects generalizing filtered with
  | nil => simp [filterLoop]
  | cons p rest ih =>
    by_cases h : contains (toLower unicodeLower p) searchLower = true
    · simp [filterLoop, h, ih]
    · simp [filterLoop, h, ih]

theorem filterProjects_eq_filter (unicodeLower : Str → Str) (projects : List Str)
    (search : Str) :
    filterProjects unicodeLower projects search =
      projects.filter
        (fun p => contains (toLower unicodeLower p) (toLower unicodeLower search)) := by
  unfold filterProjects
  split
  · next h =>
    subst h
    simp [toLower_nil, contains_nil]
  · simp [filterLoop_eq]

/-! ## Lemmas on `Update` -/

theorem Inv_initialModel (lib : Lib) (w : World) (projectsDir : Str) :
    Inv lib (initialModel w projectsDir) := by
  refine ⟨?_, ?_, ?_, ?_⟩
  · simp [initialModel, filterProjects]
  · simp [initialModel]
  · intro h
    have : (getProjects w projectsDir).1 ≠ [] := h
    simp only [initialModel]
    exact_mod_cast List.length_pos.mpr this
  · intro _
    rfl

theorem index_eq_some (l : List Str) (i : Int) (h0 : 0 ≤ i) (hlt : i < l.length) :
    ∃ p, index l i = some p ∧ p ∈ l := by
  have hn : i.toNat < l.length := by omega
  refine ⟨l.get ⟨i.toNat, hn⟩, ?_, List.get_mem l i.toNat hn⟩
  simp only [index, if_neg (not_lt.mpr h0)]
  exact List.get?_eq_get hn

theorem onEnter_preserves (lib : Lib) (m : Model) (o : Outcome)
    (h : onEnter lib m = some o) : o.model = m := by
  unfold onEnter at h
  split_ifs at h
  · split at h
    · exact absurd h (by simp)
    · simp only [Option.some.injEq] at h
      subst h
      rfl
  · simp only [Option.some.injEq] at h
    subst h
    rfl

theorem onCtrlK_inv (lib : Lib) (m : Model) (hi : Inv lib m) :
    Inv lib (onCtrlK m).model ∧ (onCtrlK m).model.choices = m.choices ∧
      (onCtrlK m).model.projectsDir = m.projectsDir := by
  obtain ⟨hf, h0, hlt, hz⟩ := hi
  unfold onCtrlK
  split_ifs with h
  · refine ⟨⟨hf, ?_, ?_, ?_⟩, rfl, rfl⟩
    · show 0 ≤ m.cursor - 1
      omega
    · intro hne
      have := hlt hne
      show m.cursor - 1 < m.filtered.length
      omega
    · intro he
      have := hz he
      omega
  · exact ⟨⟨hf, h0, hlt, hz⟩, rfl, rfl⟩

theorem onCtrlJ_inv (lib : Lib) (m : Model) (hi : Inv lib m) :
    Inv lib (onCtrlJ m).model ∧ (onCtrlJ m).model.choices = m.choices ∧
      (onCtrlJ m).model.projectsDir = m.projectsDir := by
  obtain ⟨hf, h0, hlt, hz⟩ := hi
  unfold onCtrlJ
  split_ifs with h
  · refine ⟨⟨hf, ?_, ?_, ?_⟩, rfl, rfl⟩
    · show 0 ≤ m.cursor + 1
      omega
    · intro _
      show m.cursor + 1 < m.filtered.length
      omega
    · intro he
      have he1 : m.filtered = [] := he
      have hl : (m.filtered.length : Int) = 0 := by simp [he1]
      omega
  · exact ⟨⟨hf, h0, hlt, hz⟩, rfl, rfl⟩

theorem onCtrlN_model (lib : Lib) (w : World) (m : Model) : (onCtrlN lib w m).model = m := by
  unfold onCtrlN
  by_cases h : 0 < m.search.length
  · simp only [if_pos h]
    split_ifs <;> rfl
  · simp only [if_neg h]
    rfl

theorem onBackspace_inv (lib : Lib) (m : Model) (hi : Inv lib m) :
    Inv lib (onBackspace lib m).model ∧ (onBackspace lib m).model.choices = m.choices ∧
      (onBackspace lib m).model.projectsDir = m.projectsDir := by
  obtain ⟨hf, h0, hlt, hz⟩ := hi
  unfold onBackspace
  split_ifs with h
  · refine ⟨⟨rfl, ?_, ?_, ?_⟩, rfl, rfl⟩
    · simp only [continueWith]
      split_ifs <;> omega
    · intro hne
      simp only [continueWith] at hne ⊢
      have hpos : 0 < (filterProjects lib.unicodeLower m.choices
          (m.search.take (m.search.length - 1))).length := List.length_pos.mpr hne
      split_ifs <;> omega
    · intro he
      simp only [continueWith] at he ⊢
      have hl : ((filterProjects lib.unicodeLower m.choices
          (m.search.take (m.search.length - 1))).length : Int) = 0 := by simp [he]
      split_ifs <;> omega
  · exact ⟨⟨hf, h0, hlt, hz⟩, rfl, rfl⟩

theorem onDefault_inv (lib : Lib) (m : Model) (k : Str) (hi : Inv lib m) :
    Inv lib (onDefault lib m k).model ∧ (onDefault lib m k).model.choices = m.choices ∧
      (onDefault lib m k).model.projectsDir = m.projectsDir := by
  unfold onDefault
  split_ifs with h
  · refine ⟨⟨rfl, le_refl _, ?_, fun _ => rfl⟩, rfl, rfl⟩
    intro hne
    simp only [continueWith] at hne ⊢
    exact_mod_cast List.length_pos.mpr hne
  · exact ⟨hi, rfl, rfl⟩

theorem Update_preserves (lib : Lib) (w : World) (m : Model) (msg : Msg) (o : Outcome)
    (h : Update lib w m msg = some o) (hi : Inv lib m) :
    Inv lib o.model ∧ o.model.choices = m.choices ∧
      o.model.projectsDir = m.projectsDir := by
  cases msg with
  | other =>
    simp only [Update, Option.some.injEq] at h
    subst h
    exact ⟨hi, rfl, rfl⟩
  | key k =>
    simp only [Update] at h
    split_ifs at h
    · simp only [Option.some.injEq] at h
      subst h
      exact ⟨hi, rfl, rfl⟩
    · have hm := onEnter_preserves lib m o h
      rw [hm]
      exact ⟨hi, rfl, rfl⟩
    · simp only [Option.some.injEq] at h
      subst h
      exact onCtrlK_inv lib m hi
    · simp only [Option.some.injEq] at h
      subst h
      exact onCtrlJ_inv lib m hi
    · simp only [Option.some.injEq] at h
      subst h
      rw [onCtrlN_model]
      exact ⟨hi, rfl, rfl⟩
    · simp only [Option.some.injEq] at h
      subst h
      exact onBackspace_inv lib m hi
    · simp only [Option.some.injEq] at h
      subst h
      exact onDefault_inv lib m k hi

theorem Reachable_inv (lib : Lib) (w0 : World) (projectsDir : Str) (m : Model)
    (h : Reachable lib (initialModel w0 projectsDir) m) :
    Inv lib m ∧ m.choices = (getProjects w0 projectsDir).1 ∧
      m.projectsDir = projectsDir := by
  induction h with
  | start => exact ⟨Inv_initialModel lib w0 projectsDir, rfl, rfl⟩
  | step w m msg o _ hu ih =>
    obtain ⟨hi, hc, hp⟩ := ih
    obtain ⟨hi1, hc1, hp1⟩ := Update_preserves lib w m msg o hu hi
    exact ⟨hi1, hc1.trans hc, hp1.trans hp⟩

theorem Update_enter (lib : Lib) (w : World) (m : Model) :
    Update lib w m (.key (ascii "enter")) = onEnter lib m := by
  simp only [Update]
  rw [if_neg (by decide), if_pos trivial]

theorem Update_ctrlN (lib : Lib) (w : World) (m : Model) :
    Update lib w m (.key (ascii "ctrl+n")) = some (onCtrlN lib w m) := by
  simp only [Update]
  rw [if_neg (by decide), if_neg (by decide), if_neg (by decide), if_neg (by decide),
    if_pos trivial]

theorem cdCommand_ne_nil (quoteHigh : Str → Str × Nat) (path : Str) :
    cdCommand quoteHigh path ≠ [] := by
  have h : ascii "cd " = [99, 100, 32] := by decide
  simp [cdCommand, h]

theorem mem_filterProjects (unicodeLower : Str → Str) (projects : List Str)
    (search p : Str) (h : p ∈ filterProjects unicodeLower projects search) :
    p ∈ projects := by
  rw [filterProjects_eq_filter] at h
  exact (List.mem_filter.mp h).1

/-! ## Reachable concrete models -/

theorem reachable_modelTypedA :
    Reachable libA (initialModel worldA (ascii "/p")) modelTypedA :=
  Reachable.step worldA (initialModel worldA (ascii "/p")) (.key (ascii "a"))
    (continueWith modelTypedA) Reachable.start (by decide)

theorem reachable_modelMoved :
    Reachable libA (initialModel worldA (ascii "/p")) modelMoved :=
  Reachable.step worldA modelTypedA (.key (ascii "ctrl+j"))
    (continueWith modelMoved) reachable_modelTypedA (by decide)

theorem reachable_modelTypedSlash :
    Reachable libA (initialModel worldA (ascii "/p")) modelTypedSlash :=
  Reachable.step worldA { modelTypedSlash with search := ascii "a/" } (.key (ascii "b"))
    (continueWith modelTypedSlash)
    (Reachable.step worldA modelTypedA (.key (ascii "/"))
      (continueWith { modelTypedSlash with search := ascii "a/" })
      reachable_modelTypedA (by decide))
    (by decide)

theorem reachable_modelTypedFoo :
    Reachable libA (initialModel worldA (ascii "/p")) modelTypedFoo :=
  Reachable.step worldA { modelTypedFoo with search := ascii "fo" } (.key (ascii "o"))
    (continueWith modelTypedFoo)
    (Reachable.step worldA { modelTypedFoo with search := ascii "f" } (.key (ascii "o"))
      (continueWith { modelTypedFoo with search := ascii "fo" })
      (Reachable.step worldA (initialModel worldA (ascii "/p")) (.key (ascii "f"))
        (continueWith { modelTypedFoo with search := ascii "f" })
        Reachable.start (by decide))
      (by decide))
    (by decide)

/-! ## Lemmas on `sort.Strings` and `getProjects` -/

theorem strLe_total (a b : Str) : strLe a b = true ∨ strLe b a = true := by
  induction a generalizing b with
  | nil => simp [strLe]
  | cons x s ih =>
    cases b with
    | nil => simp [strLe]
    | cons y t =>
      simp only [strLe, Bool.or_eq_true, Bool.and_eq_true, decide_eq_true_eq, beq_iff_eq]
      rcases Nat.lt_trichotomy x y with hxy | hxy | hxy
      · exact Or.inl (Or.inl hxy)
      · rcases ih t with h | h
        · exact Or.inl (Or.inr ⟨hxy, h⟩)
        · exact Or.inr (Or.inr ⟨hxy.symm, h⟩)
      · exact Or.inr (Or.inl hxy)

theorem strLe_trans (a b c : Str) (hab : strLe a b = true) (hbc : strLe b c = true) :
    strLe a c = true := by
  induction a generalizing b c with
  | nil => simp [strLe]
  | cons x s ih =>
    cases b with
    | nil => simp [strLe] at hab
    | cons y t =>
      cases c with
      | nil => simp [strLe] at hbc
      | cons z u =>
        simp only [strLe, Bool.or_eq_true, Bool.and_eq_true, decide_eq_true_eq,
          beq_iff_eq] at hab hbc ⊢
        rcases hab with hxy | ⟨hxy, hst⟩
        · rcases hbc with hyz | ⟨hyz, _⟩
          · exact Or.inl (lt_trans hxy hyz)
          · exact Or.inl (hyz ▸ hxy)
        · rcases hbc with hyz | ⟨hyz, htu⟩
          · exact Or.inl (hxy ▸ hyz)
          · exact Or.inr ⟨hxy.trans hyz, ih t u hst htu⟩

theorem strLe_iff_lex (a b : Str) :
    strLe a b = true ↔ a = b ∨ List.Lex (fun x y : Nat => x < y) a b := by
  induction a generalizing b with
  | nil =>
    cases b with
    | nil => simp [strLe]
    | cons y t => simp [strLe, List.Lex.nil]
  | cons x s ih =>
    cases b with
    | nil =>
      constructor
      · intro h
        simp [strLe] at h
      · rintro (h | h)
        · exact absurd h (by simp)
        · cases h
    | cons y t =>
      simp only [strLe, Bool.or_eq_true, Bool.and_eq_true, decide_eq_true_eq, beq_iff_eq,
        ih, List.cons.injEq]
      constructor
      · rintro (hxy | ⟨rfl, rfl | hl⟩)
        · exact Or.inr (List.Lex.rel hxy)
        · exact Or.inl ⟨rfl, rfl⟩
        · exact Or.inr (List.Lex.cons hl)
      · rintro (⟨rfl, rfl⟩ | hl)
        · exact Or.inr ⟨rfl, Or.inl rfl⟩
        · cases hl with
          | cons h => exact Or.inr ⟨rfl, Or.inr h⟩
          | rel h => exact Or.inl h

theorem sortStrings_sorted (l : List Str) :
    List.Pairwise (fun a b => strLe a b = true) (sortStrings l) := by
  haveI : IsTotal Str (fun a b => strLe a b = true) := ⟨strLe_total⟩
  haveI : IsTrans Str (fun a b => strLe a b = true) := ⟨strLe_trans⟩
  exact List.sorted_insertionSort (fun a b => strLe a b = true) l

theorem sortStrings_perm (l : List Str) : List.Perm (sortStrings l) l :=
  List.perm_insertionSort (fun a b => strLe a b = true) l

theorem collectDirs_eq (entries : List DirEntry) (projects : List Str) :
    collectDirs entries projects =
      projects ++ (entries.filter (fun e => e.isDir)).map (fun e => e.name) := by
  induction entries generalizing projects with
  | nil => simp [collectDirs]
  | cons e rest ih =>
    by_cases h : e.isDir = true
    · simp [collectDirs, h, ih]
    · simp [collectDirs, h, ih]

/-! ## Lemmas on `expandPath` -/

theorem ascii_tilde : ascii "~" = [126] := by decide

theorem ascii_tilde_slash : ascii "~/" = [126, 47] := by decide

theorem tildeUserError_eq (path : Str) :
    tildeUserError path =
      ascii "expansion of ~user paths not supported" ++
        ascii ", use absolute path instead: " ++ path := by
  have h : ascii "expansion of ~user paths not supported, use absolute path instead: " =
      ascii "expansion of ~user paths not supported" ++
        ascii ", use absolute path instead: " := by decide
  rw [tildeUserError, h]

/-! ## Lemmas on `filepath.Clean`, `Join` and `Base` -/

theorem backtrack_ge (out : Str) (dotdot w : Nat) (h : dotdot ≤ w) :
    dotdot ≤ backtrack out dotdot w := by
  induction w with
  | zero => simpa [backtrack] using h
  | succ w ih =>
    unfold backtrack
    split_ifs with hc
    · simp only [Bool.and_eq_true, decide_eq_true_eq] at hc
      exact ih (by omega)
    · exact h

theorem dropWhile_append_sep (p : Nat → Bool) (q rest : Str) (a : Nat) (ha : p a = false) :
    (q ++ a :: rest).dropWhile p = q.dropWhile p ++ a :: rest := by
  induction q with
  | nil => simp [List.dropWhile, ha]
  | cons c q ih =>
    by_cases hc : p c = true
    · simp [List.dropWhile, hc, ih]
    · simp [List.dropWhile, hc]

theorem takeWhile_all (p : Nat → Bool) (l : Str) (h : ∀ x ∈ l, p x = true) :
    l.takeWhile p = l := by
  induction l with
  | nil => rfl
  | cons c l ih =>
    simp only [List.mem_cons, forall_eq_or_imp] at h
    simp [List.takeWhile, h.1, ih h.2]

theorem dropWhile_all (p : Nat → Bool) (l : Str) (h : ∀ x ∈ l, p x = true) :
    l.dropWhile p = [] := by
  induction l with
  | nil => rfl
  | cons c l ih =>
    simp only [List.mem_cons, forall_eq_or_imp] at h
    simp [List.dropWhile, h.1, ih h.2]

theorem cleanLoop_nil (rooted : Bool) (fuel : Nat) (out : Str) (dotdot : Nat) :
    cleanLoop rooted fuel [] out dotdot = out := by
  cases fuel <;> rfl

theorem cleanLoop_last (name : Str) (hn : name ≠ []) (hs : sep ∉ name)
    (hd1 : name ≠ [dot]) (hd2 : name ≠ [dot, dot]) (rooted : Bool) :
    ∀ (fuel : Nat) (rest out : Str) (dotdot : Nat), rest.length ≤ fuel →
      (rest = name ∨ ∃ q, rest = q ++ sep :: name) →
      (rooted = true → 1 ≤ dotdot ∧ ∃ t, out = sep :: t) →
      ∃ o, cleanLoop rooted fuel rest out dotdot = o ++ name ∧
        (o = [] ∨ ∃ o', o = o' ++ [sep]) := by
  intro fuel
  induction fuel with
  | zero =>
    intro rest out dotdot hlen hform _
    have hnil : rest = [] := List.length_eq_zero.mp (Nat.le_zero.mp hlen)
    rcases hform with h | ⟨q, h⟩
    · exact absurd (h ▸ hnil) hn
    · rw [hnil] at h
      exact absurd h.symm (by simp)
  | succ fuel ih =>
    intro rest out dotdot hlen hform hroot
    cases rest with
    | nil =>
      rcases hform with h | ⟨q, h⟩
      · exact absurd h.symm hn
      · exact absurd h.symm (by simp)
    | cons c rest =>
      have hlen1 : rest.length ≤ fuel := by simpa using hlen
      rw [cleanLoop]
      by_cases h1 : c = sep
      · rw [if_pos h1]
        apply ih rest out dotdot hlen1 _ hroot
        rcases hform with h | ⟨q, h⟩
        · exact absurd (h ▸ h1 ▸ List.mem_cons_self c rest) hs
        · cases q with
          | nil => exact Or.inl (by simpa using (List.cons.inj h).2)
          | cons d q => exact Or.inr ⟨q, (List.cons.inj h).2⟩
      · rw [if_neg h1]
        -- when the rest still holds the last separator, its tail does too
        have htail : ∀ q, c :: rest = q ++ sep :: name → ∃ q1, rest = q1 ++ sep :: name := by
          intro q h
          cases q with
          | nil => exact absurd (List.cons.inj h).1 h1
          | cons d q => exact ⟨q, (List.cons.inj h).2⟩
        by_cases h2 : c = dot ∧ (rest = [] ∨ rest.head? = some sep)
        · rw [if_pos h2]
          apply ih rest out dotdot hlen1 _ hroot
          rcases hform with h | ⟨q, h⟩
          · exfalso
            rcases h2 with ⟨hc, hr | hr⟩
            · exact hd1 (by rw [← h, hc, hr])
            · cases rest with
              | nil => simp at hr
              | cons d rest =>
                simp only [List.head?_cons, Option.some.injEq] at hr
                exact hs (by rw [← h, hr]; simp)
          · exact Or.inr (htail q h)
        · rw [if_neg h2]
          by_cases h3 : c = dot ∧ rest.head? = some dot ∧
              (rest.tail = [] ∨ rest.tail.head? = some sep)
          · rw [if_pos h3]
            have hform2 : rest.tail = name ∨ ∃ q, rest.tail = q ++ sep :: name := by
              rcases hform with h | ⟨q, h⟩
              · exfalso
                obtain ⟨hc, hr, ht⟩ := h3
                cases rest with
                | nil => simp at hr
                | cons d rest =>
                  simp only [List.head?_cons, Option.some.injEq] at hr
                  simp only [List.tail_cons] at ht
                  rcases ht with ht | ht
                  · exact hd2 (by rw [← h, hc, hr, ht])
                  · cases rest with
                    | nil => simp at ht
                    | cons e rest =>
                      simp only [List.head?_cons, Option.some.injEq] at ht
                      exact hs (by rw [← h, ht]; simp)
              · obtain ⟨q1, hq1⟩ := htail q h
                cases q1 with
                | nil =>
                  exfalso
                  rw [hq1] at h3
                  have := h3.2.1
                  simp [sep, dot] at this
                | cons d q1 => exact Or.inr ⟨q1, by rw [hq1]; rfl⟩
            have hlen2 : rest.tail.length ≤ fuel := by
              rw [List.length_tail]
              omega
            by_cases h4 : dotdot < out.length
            · rw [if_pos h4]
              apply ih _ _ _ hlen2 hform2
              intro hr
              obtain ⟨hdd, t, ht⟩ := hroot hr
              refine ⟨hdd, ?_⟩
              have hb := backtrack_ge out dotdot (out.length - 1) (by omega)
              have h1b : 1 ≤ backtrack out dotdot (out.length - 1) := le_trans hdd hb
              obtain ⟨n, hn1⟩ : ∃ n, backtrack out dotdot (out.length - 1) = n + 1 :=
                ⟨_, (Nat.sub_add_cancel h1b).symm⟩
              rw [hn1, ht]
              exact ⟨_, rfl⟩
            · rw [if_neg h4]
              cases rooted with
              | false =>
                simp only [Bool.not_false, if_true]
                apply ih _ _ _ hlen2 hform2
                intro hr
                exact absurd hr (by simp)
              | true =>
                simp only [Bool.not_true, Bool.false_eq_true, if_false]
                exact ih _ _ _ hlen2 hform2 hroot
          · rw [if_neg h3]
            have hpc : (fun b : Nat => b != sep) c = true := by simpa using h1
            have hroot2 : ∀ out1 add : Str, (∃ u, out1 = out ++ u) →
                rooted = true → 1 ≤ dotdot ∧ ∃ t, out1 ++ add = sep :: t := by
              rintro out1 add ⟨u, rfl⟩ hr
              obtain ⟨hdd, t, ht⟩ := hroot hr
              exact ⟨hdd, t ++ u ++ add, by simp [ht]⟩
            have hout1 : ∃ u, (if (rooted && out.length != 1) || (!rooted && out.length != 0)
                then out ++ [sep] else out) = out ++ u := by
              split_ifs
              · exact ⟨[sep], rfl⟩
              · exact ⟨[], by simp⟩
            rcases hform with h | ⟨q, h⟩
            · have hall : ∀ x ∈ c :: rest, (fun b : Nat => b != sep) x = true := by
                intro x hx
                have hx1 : x ≠ sep := fun hxs => hs (by rw [← h, ← hxs]; exact hx)
                simpa using hx1
              simp only [dropWhile_all _ _ hall, takeWhile_all _ _ hall, cleanLoop_nil]
              refine ⟨_, by rw [h], ?_⟩
              split_ifs with hc
              · exact Or.inr ⟨out, rfl⟩
              · cases rooted with
                | true =>
                  obtain ⟨_, t, ht⟩ := hroot rfl
                  simp only [Bool.true_and, Bool.not_true, Bool.false_and, Bool.or_false,
                    bne_iff_ne, ne_eq, not_not] at hc
                  rw [ht] at hc ⊢
                  have : t = [] := by simpa using hc
                  exact Or.inr ⟨[], by simp [this]⟩
                | false =>
                  simp only [Bool.false_and, Bool.not_false, Bool.true_and, Bool.false_or,
                    bne_iff_ne, ne_eq, not_not] at hc
                  exact Or.inl (List.length_eq_zero.mp hc)
            · have hps : (fun b : Nat => b != sep) sep = false := by simp
              have hdrop : (c :: rest).dropWhile (fun b : Nat => b != sep) =
                  q.dropWhile (fun b : Nat => b != sep) ++ sep :: name := by
                rw [h]
                exact dropWhile_append_sep _ q name sep hps
              have hlen3 : ((c :: rest).dropWhile (fun b : Nat => b != sep)).length ≤ fuel := by
                have hd : (c :: rest).dropWhile (fun b : Nat => b != sep) =
                    rest.dropWhile (fun b : Nat => b != sep) := by
                  exact List.dropWhile_cons_of_pos hpc
                rw [hd]
                exact le_trans (List.dropWhile_sublist _).length_le hlen1
              exact ih _ _ _ hlen3 (Or.inr ⟨_, hdrop⟩) (hroot2 _ _ hout1)


theorem clean_last (name : Str) (hn : name ≠ []) (hs : sep ∉ name)
    (hd1 : name ≠ [dot]) (hd2 : name ≠ [dot, dot]) (path : Str)
    (hp : path = name ∨ ∃ q, path = q ++ sep :: name) :
    ∃ o, clean path = o ++ name ∧ (o = [] ∨ ∃ o', o = o' ++ [sep]) := by
  have hne : path ≠ [] := by
    rcases hp with h | ⟨q, h⟩
    · rw [h]; exact hn
    · rw [h]; simp
  have key : ∃ o, (if path.head? = some sep then cleanLoop true path.length path.tail [sep] 1
      else cleanLoop false path.length path [] 0) = o ++ name ∧
        (o = [] ∨ ∃ o', o = o' ++ [sep]) := by
    split_ifs with hr
    · apply cleanLoop_last name hn hs hd1 hd2 true
      · rw [List.length_tail]; omega
      · cases path with
        | nil => exact absurd rfl hne
        | cons c rest =>
          simp only [List.head?_cons, Option.some.injEq] at hr
          rcases hp with h | ⟨q, h⟩
          · exact absurd (by rw [← h, hr]; simp) hs
          · cases q with
            | nil => exact Or.inl (by simpa using (List.cons.inj h).2)
            | cons d q => exact Or.inr ⟨q, (List.cons.inj h).2⟩
      · intro _
        exact ⟨le_refl _, [], rfl⟩
    · apply cleanLoop_last name hn hs hd1 hd2 false _ _ _ _ (le_refl _) hp
      intro h
      exact absurd h (by simp)
  obtain ⟨o, ho, hform⟩ := key
  refine ⟨o, ?_, hform⟩
  have hne2 : o ++ name ≠ [] := by simp [hn]
  simp only [clean, if_neg hne, ho, if_neg hne2]

theorem base_last (name o : Str) (hn : name ≠ []) (hs : sep ∉ name)
    (ho : o = [] ∨ ∃ o', o = o' ++ [sep]) : base (o ++ name) = name := by
  have hne : o ++ name ≠ [] := by simp [hn]
  have hall : ∀ x ∈ name.reverse, (fun b : Nat => b != sep) x = true := by
    intro x hx
    have hx1 : x ≠ sep := fun hxs => hs (by rw [← hxs]; exact List.mem_reverse.mp hx)
    simpa using hx1
  obtain ⟨l, a, hla⟩ : ∃ l a, name = l ++ [a] := by
    rcases List.eq_nil_or_concat name with h | ⟨l, a, h⟩
    · exact absurd h hn
    · exact ⟨l, a, by simpa using h⟩
  have ha : a ≠ sep := fun h => hs (by rw [hla, h]; simp)
  have hstrip : ((o ++ name).reverse.dropWhile (fun b => b == sep)).reverse = o ++ name := by
    rw [hla]
    simp [List.dropWhile, ha]
  have htake : ((o ++ name).reverse.takeWhile (fun b : Nat => b != sep)) = name.reverse := by
    rw [List.reverse_append]
    rcases ho with rfl | ⟨o', rfl⟩
    · simpa using takeWhile_all _ _ hall
    · rw [List.reverse_append, List.reverse_singleton, List.singleton_append]
      rw [List.takeWhile_append_of_pos hall]
      simp [List.takeWhile]
  simp only [base, if_neg hne, hstrip, htake, List.reverse_reverse, if_neg hn]

theorem base_join (d name : Str) (hn : name ≠ []) (hs : sep ∉ name)
    (hd1 : name ≠ [dot]) (hd2 : name ≠ [dot, dot]) : base (join d name) = name := by
  have h : ∃ o, join d name = o ++ name ∧ (o = [] ∨ ∃ o', o = o' ++ [sep]) := by
    unfold join
    split_ifs with h1
    · exact clean_last name hn hs hd1 hd2 _ (Or.inr ⟨d, by simp⟩)
    · exact clean_last name hn hs hd1 hd2 _ (Or.inl rfl)
  obtain ⟨o, ho, hform⟩ := h
  rw [ho]
  exact base_last name o hn hs hform

/-- The fuel of `cleanLoop` never runs out: any two amounts of at least the length of
the unread rest give the same result. -/
theorem cleanLoop_fuel (rooted : Bool) :
    ∀ (fuel fuel1 : Nat) (rest out : Str) (dotdot : Nat),
      rest.length ≤ fuel → rest.length ≤ fuel1 →
      cleanLoop rooted fuel rest out dotdot = cleanLoop rooted fuel1 rest out dotdot := by
  intro fuel
  induction fuel with
  | zero =>
    intro fuel1 rest out dotdot h _
    have hnil : rest = [] := List.length_eq_zero.mp (Nat.le_zero.mp h)
    rw [hnil, cleanLoop_nil, cleanLoop_nil]
  | succ fuel ih =>
    intro fuel1 rest out dotdot h h1
    cases rest with
    | nil => rw [cleanLoop_nil, cleanLoop_nil]
    | cons c rest =>
      cases fuel1 with
      | zero => simp at h1
      | succ fuel1 =>
        have hl : rest.length ≤ fuel := by simpa using h
        have hl1 : rest.length ≤ fuel1 := by simpa using h1
        have ht : rest.tail.length ≤ fuel := by rw [List.length_tail]; omega
        have ht1 : rest.tail.length ≤ fuel1 := by rw [List.length_tail]; omega
        have hd : ((c :: rest).dropWhile (fun b : Nat => b != sep)).length ≤ rest.length ∨
            c = sep := by
          by_cases hc : c = sep
          · exact Or.inr hc
          · left
            have hpc : (fun b : Nat => b != sep) c = true := by simpa using hc
            have hdw : (c :: rest).dropWhile (fun b : Nat => b != sep) =
                rest.dropWhile (fun b : Nat => b != sep) := List.dropWhile_cons_of_pos hpc
            rw [hdw]
            exact (List.dropWhile_sublist _).length_le
        rw [cleanLoop, cleanLoop]
        split_ifs with c1
        all_goals first
          | exact ih _ _ _ _ hl hl1
          | exact ih _ _ _ _ ht ht1
          | exact ih _ _ _ _ (le_trans (hd.resolve_right c1) hl)
              (le_trans (hd.resolve_right c1) hl1)

/-! ## Theorems -/

/-- C1: `filterProjects` returns exactly the projects whose lower-cased name has the
lower-cased search as a contiguous substring (some `l ++ lower search ++ r`), in the
order of the input (it is the input filtered by that test, hence a sublist of it),
and the empty search returns the input unchanged. -/
theorem C1_filterProjects_spec (unicodeLower : Str → Str) (projects : List Str)
    (search : Str) :
    filterProjects unicodeLower projects search =
        projects.filter
          (fun p => contains (toLower unicodeLower p) (toLower unicodeLower search))
    ∧ (∀ p, p ∈ filterProjects unicodeLower projects search ↔
        p ∈ projects ∧
          ∃ l r, toLower unicodeLower p = l ++ toLower unicodeLower search ++ r)
    ∧ List.Sublist (filterProjects unicodeLower projects search) projects
    ∧ filterProjects unicodeLower projects [] = projects := by
  refine ⟨filterProjects_eq_filter _ _ _, ?_, ?_, ?_⟩
  · intro p
    rw [filterProjects_eq_filter, List.mem_filter, contains_iff]
  · rw [filterProjects_eq_filter]
    exact List.filter_sublist _
  · simp [filterProjects]

/-- C2: in every model reachable from `initialModel` by calls of `Update`, the cursor
is a valid position of the filtered list: `0 <= cursor`, `cursor < len(filtered)`
when `filtered` is non-empty, and `cursor = 0` when it is empty. -/
theorem C2_cursor_in_range (lib : Lib) (w0 : World) (projectsDir : Str) (m : Model)
    (h : Reachable lib (initialModel w0 projectsDir) m) :
    0 ≤ m.cursor ∧ (m.filtered ≠ [] → m.cursor < m.filtered.length) ∧
      (m.filtered = [] → m.cursor = 0) :=
  (Reachable_inv lib w0 projectsDir m h).1.2

/-- Witness of C2: the model reached by typing `a` and pressing ctrl+j has its
cursor, 1, inside its filtered list of two entries. -/
theorem C2_cursor_in_range_witness :
    Reachable libA (initialModel worldA (ascii "/p")) modelMoved ∧
    modelMoved.cursor = 1 ∧
    (0 ≤ modelMoved.cursor ∧
      (modelMoved.filtered ≠ [] → modelMoved.cursor < modelMoved.filtered.length) ∧
      (modelMoved.filtered = [] → modelMoved.cursor = 0)) :=
  ⟨reachable_modelMoved, rfl,
    C2_cursor_in_range libA worldA (ascii "/p") modelMoved reachable_modelMoved⟩

/-- C3: on a reachable model, enter never panics, returns the model unchanged and
creates nothing; it quits and prints iff the filtered list is non-empty; what it
prints is then `cd %q` of `filepath.Join(projectsDir, p)` with `p` the entry of
`filtered` under the cursor, which is one of `choices`, the directories listed at
start; on an empty filtered list it prints nothing and does not quit. -/
theorem C3_enter (lib : Lib) (w0 w : World) (projectsDir : Str) (m : Model)
    (h : Reachable lib (initialModel w0 projectsDir) m) :
    ∃ o, Update lib w m (.key (ascii "enter")) = some o ∧
      o.model = m ∧ o.mkdirAll = none ∧
      (o.quit = true ↔ m.filtered ≠ []) ∧
      (o.stdout ≠ [] ↔ m.filtered ≠ []) ∧
      (m.filtered ≠ [] → ∃ p, index m.filtered m.cursor = some p ∧
        p ∈ m.choices ∧ p ∈ (getProjects w0 projectsDir).1 ∧
        o.stdout = cdCommand lib.quoteHigh (join projectsDir p)) ∧
      (m.filtered = [] → o = continueWith m) := by
  obtain ⟨⟨hf, h0, hlt, _⟩, hc, hp⟩ := Reachable_inv lib w0 projectsDir m h
  rw [Update_enter]
  by_cases hne : m.filtered = []
  · have hcond : ¬ (0 < m.filtered.length ∧ m.cursor < m.filtered.length) := by
      simp [hne]
    refine ⟨continueWith m, ?_, rfl, rfl, ?_, ?_, ?_, fun _ => rfl⟩
    · simp only [onEnter, if_neg hcond]
    · simp [continueWith, hne]
    · simp [continueWith, hne]
    · intro hcontra
      exact absurd hne hcontra
  · have hl := hlt hne
    have hcond : 0 < m.filtered.length ∧ m.cursor < m.filtered.length :=
      ⟨List.length_pos.mpr hne, hl⟩
    obtain ⟨p, hp1, hp2⟩ := index_eq_some m.filtered m.cursor h0 hl
    have hpc : p ∈ m.choices := by
      rw [hf] at hp2
      exact mem_filterProjects _ _ _ _ hp2
    refine ⟨{ model := m, quit := true,
              stdout := cdCommand lib.quoteHigh (join m.projectsDir p),
              mkdirAll := none }, ?_, rfl, rfl, ?_, ?_, ?_, ?_⟩
    · simp only [onEnter, if_pos hcond, hp1]
    · simp [hne]
    · simp [hne, cdCommand_ne_nil]
    · intro _
      exact ⟨p, hp1, hpc, hc ▸ hpc, by rw [hp]⟩
    · intro hcontra
      exact absurd hcontra hne

/-- Witness of C3: after typing `a` and pressing ctrl+j, enter prints
`cd "/p/beta"` and quits. -/
theorem C3_enter_witness :
    Reachable libA (initialModel worldA (ascii "/p")) modelMoved ∧
    Update libA worldA modelMoved (.key (ascii "enter")) =
      some { model := modelMoved, quit := true, stdout := ascii "cd \"/p/beta\"",
             mkdirAll := none } ∧
    ∃ o, Update libA worldA modelMoved (.key (ascii "enter")) = some o ∧
      o.model = modelMoved ∧ o.mkdirAll = none ∧
      (o.quit = true ↔ modelMoved.filtered ≠ []) ∧
      (o.stdout ≠ [] ↔ modelMoved.filtered ≠ []) ∧
      (modelMoved.filtered ≠ [] → ∃ p, index modelMoved.filtered modelMoved.cursor = some p ∧
        p ∈ modelMoved.choices ∧ p ∈ (getProjects worldA (ascii "/p")).1 ∧
        o.stdout = cdCommand libA.quoteHigh (join (ascii "/p") p)) ∧
      (modelMoved.filtered = [] → o = continueWith modelMoved) :=
  ⟨reachable_modelMoved, by decide,
    C3_enter libA worldA worldA (ascii "/p") modelMoved reachable_modelMoved⟩

/-- C9: in every model reachable from `initialModel` by calls of `Update`, `filtered`
is `filterProjects(choices, search)`, `choices` and `projectsDir` are those of the
initial model, and one more call of `Update` that returns changes neither. -/
theorem C9_filtered_is_filter (lib : Lib) (w0 : World) (projectsDir : Str) (m : Model)
    (h : Reachable lib (initialModel w0 projectsDir) m) :
    m.filtered = filterProjects lib.unicodeLower m.choices m.search ∧
    m.choices = (initialModel w0 projectsDir).choices ∧
    m.projectsDir = (initialModel w0 projectsDir).projectsDir ∧
    (∀ w msg o, Update lib w m msg = some o →
      o.model.choices = m.choices ∧ o.model.projectsDir = m.projectsDir) := by
  obtain ⟨hi, hc, hp⟩ := Reachable_inv lib w0 projectsDir m h
  refine ⟨hi.1, hc, hp, ?_⟩
  intro w msg o hu
  exact (Update_preserves lib w m msg o hu hi).2

/-- Witness of C9: the model reached by typing `a`. -/
theorem C9_filtered_is_filter_witness :
    Reachable libA (initialModel worldA (ascii "/p")) modelTypedA ∧
    (modelTypedA.filtered =
        filterProjects libA.unicodeLower modelTypedA.choices modelTypedA.search ∧
      modelTypedA.choices = (initialModel worldA (ascii "/p")).choices ∧
      modelTypedA.projectsDir = (initialModel worldA (ascii "/p")).projectsDir ∧
      (∀ w msg o, Update libA w modelTypedA msg = some o →
        o.model.choices = modelTypedA.choices ∧
          o.model.projectsDir = modelTypedA.projectsDir)) :=
  ⟨reachable_modelTypedA,
    C9_filtered_is_filter libA worldA (ascii "/p") modelTypedA reachable_modelTypedA⟩

/-- C5: when the projects directory does not exist, `getProjects` returns the empty
list and no error; when it exists and `os.ReadDir` succeeds, it returns no error and
a list that holds exactly the names of the entries that are directories (a
permutation of them: none missing, none added, no regular file) in ascending
byte-wise lexicographic order. -/
theorem C5_getProjects (w : World) (projectsDir : Str) :
    (w.statNotExist projectsDir = true → getProjects w projectsDir = ([], none)) ∧
    (∀ entries, w.statNotExist projectsDir = false →
      w.readDir projectsDir = .ok entries →
      (getProjects w projectsDir).2 = none ∧
      List.Perm (getProjects w projectsDir).1
        ((entries.filter (fun e => e.isDir)).map (fun e => e.name)) ∧
      (∀ n, n ∈ (getProjects w projectsDir).1 ↔
        ∃ e, e ∈ entries ∧ e.isDir = true ∧ e.name = n) ∧
      List.Pairwise (fun a b => a = b ∨ List.Lex (fun x y : Nat => x < y) a b)
        (getProjects w projectsDir).1) := by
  constructor
  · intro h
    simp [getProjects, h]
  · intro entries h1 h2
    have hg : getProjects w projectsDir =
        (sortStrings ((entries.filter (fun e => e.isDir)).map (fun e => e.name)), none) := by
      simp [getProjects, h1, h2, collectDirs_eq]
    rw [hg]
    refine ⟨rfl, sortStrings_perm _, ?_, ?_⟩
    · intro n
      rw [(sortStrings_perm _).mem_iff]
      simp only [List.mem_map, List.mem_filter]
      constructor
      · rintro ⟨e, ⟨he, hd⟩, hn⟩
        exact ⟨e, he, hd, hn⟩
      · rintro ⟨e, he, hd, hn⟩
        exact ⟨e, ⟨he, hd⟩, hn⟩
    · exact (sortStrings_sorted _).imp (fun h => (strLe_iff_lex _ _).mp h)

/-- Witness of C5: in the example world `/p` lists as `Alpha`, `beta` (the file
`notes` is left out), and the missing directory `/q` as the empty list. -/
theorem C5_getProjects_witness :
    getProjects worldA (ascii "/p") = ([ascii "Alpha", ascii "beta"], none) ∧
    getProjects worldA (ascii "/q") = ([], none) ∧
    ((getProjects worldA (ascii "/p")).2 = none ∧
      List.Perm (getProjects worldA (ascii "/p")).1
        (([⟨ascii "Alpha", true⟩, ⟨ascii "beta", true⟩, ⟨ascii "notes", false⟩].filter
          (fun e : DirEntry => e.isDir)).map (fun e => e.name)) ∧
      (∀ n, n ∈ (getProjects worldA (ascii "/p")).1 ↔
        ∃ e, e ∈ [(⟨ascii "Alpha", true⟩ : DirEntry), ⟨ascii "beta", true⟩,
          ⟨ascii "notes", false⟩] ∧ e.isDir = true ∧ e.name = n) ∧
      List.Pairwise (fun a b => a = b ∨ List.Lex (fun x y : Nat => x < y) a b)
        (getProjects worldA (ascii "/p")).1) :=
  ⟨by decide, (C5_getProjects worldA (ascii "/q")).1 (by decide),
    (C5_getProjects worldA (ascii "/p")).2 _ (by decide) rfl⟩

/-- C8: with a home-directory lookup that succeeds with `home`, `expandPath` is the
reference (unchanged without a leading `~`, `home` for `~`, `filepath.Join(home, rest)`
for `~/rest`, the error of ~user paths otherwise, whose text goes on with
`, use absolute path instead: ` and the path), and it returns an error exactly when
the path is `~` followed by a byte other than `/`. -/
theorem C8_expandPath (home path : Str) :
    toExcept (expandPath (home, none) path) =
      (expandPathRef home path).mapError
        (fun e => e ++ ascii ", use absolute path instead: " ++ path) ∧
    ((expandPath (home, none) path).2 ≠ none ↔
      ∃ c rest, path = 126 :: c :: rest ∧ c ≠ sep) := by
  cases path with
  | nil =>
    simp [expandPath, expandPathRef, toExcept, hasPrefix, ascii_tilde, Except.mapError]
  | cons c rest =>
    by_cases hc : c = 126
    · subst hc
      cases rest with
      | nil =>
        simp [expandPath, expandPathRef, toExcept, hasPrefix, ascii_tilde,
          ascii_tilde_slash, Except.mapError]
      | cons d rest1 =>
        by_cases hd : d = sep
        · subst hd
          simp [expandPath, expandPathRef, toExcept, hasPrefix, ascii_tilde,
            ascii_tilde_slash, Except.mapError, sep]
        · have hd1 : ¬ d = 47 := hd
          simp [expandPath, expandPathRef, toExcept, hasPrefix, ascii_tilde,
            ascii_tilde_slash, Except.mapError, hd, hd1, tildeUserError_eq]
    · simp [expandPath, expandPathRef, toExcept, hasPrefix, ascii_tilde, Except.mapError,
        hc]

/-- C7 as stated fails: after typing `foo` (no project matches), ctrl+n creates and
prints `/p/2026-11-04-foo`, whose name `2026-11-04-foo` is not the search text. -/
theorem C7_name_is_not_search :
    Reachable libA (initialModel worldA (ascii "/p")) modelTypedFoo ∧
    modelTypedFoo.search = ascii "foo" ∧ modelTypedFoo.filtered = [] ∧
    Update libA worldA modelTypedFoo (.key (ascii "ctrl+n")) =
      some { model := modelTypedFoo, quit := true,
             stdout := ascii "cd \"/p/2026-11-04-foo\"",
             mkdirAll := some (ascii "/p/2026-11-04-foo") } ∧
    base (ascii "/p/2026-11-04-foo") = ascii "2026-11-04-foo" ∧
    base (ascii "/p/2026-11-04-foo") ≠ modelTypedFoo.search :=
  ⟨reachable_modelTypedFoo, by decide, by decide, by decide, by decide, by decide⟩

/-- C7, amended: for a non-empty search text without a path separator (and a date
without one), ctrl+n hands `filepath.Join(projectsDir, name)` to `os.MkdirAll`, where
`name` is the date, a hyphen and the search text, and `name` is the name of that
directory (its `filepath.Base`); the model is unchanged; when the creation succeeds
the command printed is `cd %q` of that path and the program quits, otherwise nothing
is printed and it goes on. -/
theorem C7_ctrlN_creates_dated_name (lib : Lib) (w : World) (m : Model)
    (hsearch : m.search ≠ []) (hs : sep ∉ m.search) (ht : sep ∉ w.today) :
    ∃ o, Update lib w m (.key (ascii "ctrl+n")) = some o ∧ o.model = m ∧
      o.mkdirAll = some (join m.projectsDir (w.today ++ ascii "-" ++ m.search)) ∧
      base (join m.projectsDir (w.today ++ ascii "-" ++ m.search)) =
        w.today ++ ascii "-" ++ m.search ∧
      (w.mkdirAllOk (join m.projectsDir (w.today ++ ascii "-" ++ m.search)) = true →
        o.quit = true ∧
        o.stdout =
          cdCommand lib.quoteHigh (join m.projectsDir (w.today ++ ascii "-" ++ m.search))) ∧
      (w.mkdirAllOk (join m.projectsDir (w.today ++ ascii "-" ++ m.search)) = false →
        o.quit = false ∧ o.stdout = []) := by
  have hdash : ascii "-" = [45] := by decide
  have hpos : 0 < m.search.length := List.length_pos.mpr hsearch
  have hmem : (45 : Nat) ∈ w.today ++ ascii "-" ++ m.search := by simp [hdash]
  have hbase : base (join m.projectsDir (w.today ++ ascii "-" ++ m.search)) =
      w.today ++ ascii "-" ++ m.search := by
    apply base_join
    · simp [hsearch]
    · simp only [List.mem_append, not_or]
      exact ⟨⟨ht, by simp [hdash, sep]⟩, hs⟩
    · intro h
      rw [h] at hmem
      simp [dot] at hmem
    · intro h
      rw [h] at hmem
      simp [dot] at hmem
  refine ⟨onCtrlN lib w m, Update_ctrlN lib w m, onCtrlN_model lib w m, ?_, hbase, ?_, ?_⟩
  · simp only [onCtrlN, if_pos hpos]
    split_ifs <;> rfl
  · intro hok
    simp only [onCtrlN, if_pos hpos, if_pos hok, and_self]
  · intro hok
    have hno : ¬ w.mkdirAllOk (join m.projectsDir (w.today ++ ascii "-" ++ m.search)) = true := by
      rw [hok]
      exact Bool.false_ne_true
    simp only [onCtrlN, if_pos hpos, if_neg hno, and_self]

/-- Witness of C7, amended: after typing `foo` on 2026-11-04, ctrl+n creates
`/p/2026-11-04-foo`. -/
theorem C7_ctrlN_creates_dated_name_witness :
    modelTypedFoo.search ≠ [] ∧ sep ∉ modelTypedFoo.search ∧ sep ∉ worldA.today ∧
    join modelTypedFoo.projectsDir (worldA.today ++ ascii "-" ++ modelTypedFoo.search) =
      ascii "/p/2026-11-04-foo" ∧
    ∃ o, Update libA worldA modelTypedFoo (.key (ascii "ctrl+n")) = some o ∧
      o.model = modelTypedFoo ∧
      o.mkdirAll = some (join modelTypedFoo.projectsDir
        (worldA.today ++ ascii "-" ++ modelTypedFoo.search)) ∧
      base (join modelTypedFoo.projectsDir
          (worldA.today ++ ascii "-" ++ modelTypedFoo.search)) =
        worldA.today ++ ascii "-" ++ modelTypedFoo.search ∧
      (worldA.mkdirAllOk (join modelTypedFoo.projectsDir
          (worldA.today ++ ascii "-" ++ modelTypedFoo.search)) = true →
        o.quit = true ∧
        o.stdout = cdCommand libA.quoteHigh (join modelTypedFoo.projectsDir
          (worldA.today ++ ascii "-" ++ modelTypedFoo.search))) ∧
      (worldA.mkdirAllOk (join modelTypedFoo.projectsDir
          (worldA.today ++ ascii "-" ++ modelTypedFoo.search)) = false →
        o.quit = false ∧ o.stdout = []) :=
  ⟨by decide, by decide, by decide, by decide,
    C7_ctrlN_creates_dated_name libA worldA modelTypedFoo (by decide) (by decide)
      (by decide)⟩

/-- C4, the code at a failing input: after typing `a`, `/`, `b`, ctrl+n creates and
prints `/p/2026-11-04-a/b`, whose parent directory is `/p/2026-11-04-a` and not the
projects directory `/p`; and the name made of the search text `/../../x` joins to
`/x`, outside the projects directory. -/
theorem C4_created_path_not_in_projectsDir :
    Reachable libA (initialModel worldA (ascii "/p")) modelTypedSlash ∧
    modelTypedSlash.search = ascii "a/b" ∧
    Update libA worldA modelTypedSlash (.key (ascii "ctrl+n")) =
      some { model := modelTypedSlash, quit := true,
             stdout := ascii "cd \"/p/2026-11-04-a/b\"",
             mkdirAll := some (ascii "/p/2026-11-04-a/b") } ∧
    dir (ascii "/p/2026-11-04-a/b") = ascii "/p/2026-11-04-a" ∧
    dir (ascii "/p/2026-11-04-a/b") ≠ ascii "/p" ∧
    join (ascii "/p") (worldA.today ++ ascii "-" ++ ascii "/../../x") = ascii "/x" :=
  ⟨reachable_modelTypedSlash, by decide, by decide, by decide, by decide, by decide⟩

/-- C6, the code at a failing input: for the path `/p/$HOME` the text printed is
`cd "/p/$HOME"`, in which the shell performs a parameter expansion; the same
happens with a backquote (command substitution), with the search text `$HOME`
through ctrl+n, and a newline in the path is printed as backslash-n, which the
shell reads as those two bytes. -/
theorem C6_cd_command_expands :
    cdCommand libA.quoteHigh (ascii "/p/$HOME") = ascii "cd \"/p/$HOME\"" ∧
    readCommand (cdCommand libA.quoteHigh (ascii "/p/$HOME")) = ShellReading.expands ∧
    readCommand (cdCommand libA.quoteHigh (ascii "/p/x`id`")) = ShellReading.expands ∧
    (Update libA worldA modelTypedDollar (.key (ascii "ctrl+n"))).map (fun o => o.stdout) =
      some (ascii "cd \"/p/2026-11-04-$HOME\"") ∧
    readCommand (ascii "cd \"/p/2026-11-04-$HOME\"") = ShellReading.expands ∧
    readCommand (cdCommand libA.quoteHigh (ascii "/p/a\nb")) =
      ShellReading.cdLiteral (ascii "/p/a\\nb") ∧
    readCommand (cdCommand libA.quoteHigh (ascii "/p/a\"b\\c")) =
      ShellReading.cdLiteral (ascii "/p/a\"b\\c") :=
  ⟨by decide, by decide, by decide, by decide, by decide, by decide, by decide⟩

end Try
